import Mathlib

/-!
Verification of the dconf-manager reconciliation tool.

The development shallowly embeds the two source files:
  - `HierarchicalSet` (a prefix-closed set of paths, here `HSet`), and
  - the reconciliation loop of `main` (here `reconcile`), which diffs a
    desired configuration against the live dconf state and emits
    write / reset / ignored actions, optionally dispatching store operations.

Python dictionaries are modelled as association lists in insertion order
(Python dicts preserve insertion order; updating an existing key keeps its
position, inserting a new key appends at the end).  Machine-level I/O
(the dconf subprocess calls, file reading, argument parsing) is outside the
embedded core: a dispatched store call is recorded as a `StoreOp` value.
-/

/-! ## String utilities

Python compares strings lexicographically by code point; `sorted` uses that
order ascending.  `lexLe` is that comparison on the underlying character
lists, kept as an executable `Bool` function.
-/

def lexLe : List Char → List Char → Bool
  | [], _ => true
  | _ :: _, [] => false
  | a :: as, b :: bs => if a < b then true else if b < a then false else lexLe as bs

/-- Python string comparison `a <= b` (code-point lexicographic). -/
def strLe (a b : String) : Bool := lexLe a.data b.data

/-- The ordering relation used by `sorted(...)` on strings. -/
def rStr (a b : String) : Prop := strLe a b = true

instance : DecidableRel rStr := fun _ _ => instDecidableEqBool _ _

theorem lexLe_total (x y : List Char) : lexLe x y = true ∨ lexLe y x = true := by
  induction x generalizing y with
  | nil => left; rfl
  | cons a as ih =>
    cases y with
    | nil => right; rfl
    | cons b bs =>
      rcases lt_trichotomy a b with h | h | h
      · left; simp [lexLe, h]
      · subst h
        rcases ih bs with h2 | h2
        · left; simp [lexLe, lt_irrefl, h2]
        · right; simp [lexLe, lt_irrefl, h2]
      · right; simp [lexLe, h]

theorem lexLe_trans {x y z : List Char} (h1 : lexLe x y = true) (h2 : lexLe y z = true) :
    lexLe x z = true := by
  induction x generalizing y z with
  | nil => rfl
  | cons a as ih =>
    cases y with
    | nil => simp [lexLe] at h1
    | cons b bs =>
      cases z with
      | nil => simp [lexLe] at h2
      | cons c cs =>
        simp only [lexLe] at h1 h2 ⊢
        rcases lt_trichotomy a b with hab | hab | hab
        · rcases lt_trichotomy b c with hbc | hbc | hbc
          · simp [lt_trans hab hbc]
          · subst hbc; simp [hab]
          · simp [hbc, asymm hbc] at h2
        · subst hab
          rcases lt_trichotomy a c with hac | hac | hac
          · simp [hac]
          · subst hac
            simp [lt_irrefl] at h1 h2 ⊢
            exact ih h1 h2
          · simp [hac, asymm hac] at h2
        · simp [hab, asymm hab] at h1

theorem lexLe_antisymm {x y : List Char} (h1 : lexLe x y = true) (h2 : lexLe y x = true) :
    x = y := by
  induction x generalizing y with
  | nil =>
    cases y with
    | nil => rfl
    | cons b bs => simp [lexLe] at h2
  | cons a as ih =>
    cases y with
    | nil => simp [lexLe] at h1
    | cons b bs =>
      simp only [lexLe] at h1 h2
      rcases lt_trichotomy a b with hab | hab | hab
      · simp [hab, asymm hab] at h2
      · subst hab
        simp [lt_irrefl] at h1 h2
        rw [ih h1 h2]
      · simp [hab, asymm hab] at h1

instance : IsTotal String rStr := ⟨fun a b => lexLe_total a.data b.data⟩

instance : IsTrans String rStr := ⟨fun _ _ _ h1 h2 => lexLe_trans h1 h2⟩

instance : IsAntisymm String rStr :=
  ⟨fun a b h1 h2 => by
    cases a; cases b
    simp only [rStr, strLe] at h1 h2
    simp [lexLe_antisymm h1 h2]⟩

/-- Splitting a character list at every slash; mirrors Python
`str.split("/")`, in particular the empty string splits to one empty piece. -/
def splitSlashChars : List Char → List (List Char)
  | [] => [[]]
  | c :: rest =>
    if c = '/' then [] :: splitSlashChars rest
    else
      match splitSlashChars rest with
      | [] => [[c]]
      | w :: ws => (c :: w) :: ws

/-- Python `section.split("/")`. -/
def splitSlash (s : String) : List String :=
  (splitSlashChars s.data).map (fun l => String.mk l)

/-- Python `section.startswith("-")`. -/
def startsWithDash (s : String) : Bool :=
  match s.data with
  | [] => false
  | c :: _ => c = '-'

/-- Python `section[1:]`. -/
def dropHead (s : String) : String := String.mk s.data.tail

/-- Python `posixpath.join` on two components. -/
def pjoin (a b : String) : String :=
  if b.data.head? = some '/' then b
  else if a.data = [] then b
  else if a.data.getLast? = some '/' then a ++ b
  else a ++ ("/") ++ b

/-! ## The hierarchical path set

Embedding of `HierarchicalSet` (src/dconf_manager.py lines 29-92).
`terminal` is the Python state `_children is None` ("we have everything under
here"); `node cs` is a child dictionary, kept in insertion order.
-/

inductive HSet (α : Type) where
  | terminal : HSet α
  | node : List (α × HSet α) → HSet α

namespace HSet

variable {α : Type} [DecidableEq α]

/-- Dictionary lookup `children[k]`. -/
def lookupA (x : α) : List (α × HSet α) → Option (HSet α)
  | [] => none
  | (k, v) :: cs => if k = x then some v else lookupA x cs

/-- Dictionary update `children[k] = v`: replaces in place, appends if new. -/
def setA (x : α) (nv : HSet α) : List (α × HSet α) → List (α × HSet α)
  | [] => [(x, nv)]
  | (k, v) :: cs => if k = x then (x, nv) :: cs else (k, v) :: setA x nv cs

/-- `HierarchicalSet()`: the empty set. -/
def empty : HSet α := .node []

/-- `HierarchicalSet._add` (called through `add`): descend along the path,
creating children as needed; at the end of the path the node becomes
`terminal`, discarding previous children; a `terminal` node absorbs adds. -/
def add : HSet α → List α → HSet α
  | .terminal, _ => .terminal
  | .node _, [] => .terminal
  | .node cs, x :: q => .node (setA x (((lookupA x cs).getD HSet.empty).add q) cs)

/-- `HierarchicalSet.__contains__`: true iff the descent along the path
reaches a `terminal` node at or before the end of the path. -/
def mem : HSet α → List α → Bool
  | .terminal, _ => true
  | .node _, [] => false
  | .node cs, x :: p =>
    match lookupA x cs with
    | some c => c.mem p
    | none => false

end HSet

/-- Boolean prefix test on lists (`Q` is a prefix of `P`, including equality). -/
def prefixB {α : Type} [DecidableEq α] : List α → List α → Bool
  | [], _ => true
  | _ :: _, [] => false
  | a :: as, b :: bs => if a = b then prefixB as bs else false

namespace HSet

variable {α : Type} [DecidableEq α]

@[simp] theorem mem_terminal (p : List α) : HSet.terminal.mem p = true := by
  cases p <;> rfl

@[simp] theorem mem_empty (p : List α) : (HSet.empty : HSet α).mem p = false := by
  cases p <;> rfl

theorem lookupA_setA_self (x : α) (nv : HSet α) (cs : List (α × HSet α)) :
    lookupA x (setA x nv cs) = some nv := by
  induction cs with
  | nil => simp [setA, lookupA]
  | cons kv cs ih =>
    obtain ⟨k, v⟩ := kv
    by_cases h : k = x
    · simp [setA, lookupA, h]
    · simp [setA, lookupA, h, ih]

theorem lookupA_setA_ne {x y : α} (h : y ≠ x) (nv : HSet α) (cs : List (α × HSet α)) :
    lookupA y (setA x nv cs) = lookupA y cs := by
  have hx : ¬ x = y := fun hh => h hh.symm
  induction cs with
  | nil => simp [setA, lookupA, hx]
  | cons kv cs ih =>
    obtain ⟨k, v⟩ := kv
    by_cases hk : k = x
    · subst hk
      simp [setA, lookupA, hx]
    · simp [setA, lookupA, hk, ih]

/-- Core characterization of `add`: membership after an `add` is the old
membership, or the added path being a prefix of the queried path. -/
theorem mem_add (s : HSet α) (q p : List α) :
    (s.add q).mem p = (s.mem p || prefixB q p) := by
  induction q generalizing s p with
  | nil =>
    cases s with
    | terminal => simp [add, prefixB]
    | node cs => simp [add, prefixB]
  | cons x q ih =>
    cases s with
    | terminal => simp [add]
    | node cs =>
      cases p with
      | nil => simp [add, mem, prefixB]
      | cons y p =>
        by_cases hxy : x = y
        · subst hxy
          have hl : lookupA x (setA x (((lookupA x cs).getD HSet.empty).add q) cs)
              = some (((lookupA x cs).getD HSet.empty).add q) :=
            lookupA_setA_self _ _ _
          simp only [add, mem, hl, prefixB, if_pos rfl]
          rw [ih]
          cases hc : lookupA x cs with
          | none => simp [hc]
          | some c => simp [hc]
        · have hl : lookupA y (setA x (((lookupA x cs).getD HSet.empty).add q) cs)
              = lookupA y cs := lookupA_setA_ne (fun hh => hxy hh.symm) _ _
          simp only [add, mem, hl, prefixB, if_neg hxy]
          simp
theorem mem_foldl_add (adds : List (List α)) (s : HSet α) (p : List α) :
    (adds.foldl HSet.add s).mem p = (s.mem p || adds.any (fun q => prefixB q p)) := by
  induction adds generalizing s with
  | nil => simp
  | cons q adds ih =>
    simp only [List.foldl_cons, List.any_cons]
    rw [ih, mem_add, Bool.or_assoc]

end HSet

theorem prefixB_iff {α : Type} [DecidableEq α] (q p : List α) :
    prefixB q p = true ↔ q <+: p := by
  induction q generalizing p with
  | nil => simp [prefixB]
  | cons a as ih =>
    cases p with
    | nil =>
      simp only [prefixB, List.prefix_nil]
      simp
    | cons b bs =>
      by_cases h : a = b
      · subst h
        simp [prefixB, List.cons_prefix_cons, ih]
      · simp [prefixB, h, List.cons_prefix_cons]

/-- Ordering on child-dictionary entries used by `sorted(self._children.items())`:
Python sorts the `(key, value)` tuples, which compares keys first; keys in a
dictionary are unique, so the value component never takes part. -/
def rPair (p q : String × HSet String) : Prop := strLe p.1 q.1 = true

instance : DecidableRel rPair := fun _ _ => instDecidableEqBool _ _

/-- `HierarchicalSet._expand_tree`: depth-first, key-sorted traversal
producing `(depth, some key)` lines and `(depth, none)` sentinel lines. -/
def HSet.expandTree : HSet String → List (Nat × Option String)
  | .terminal => [(0, none)]
  | .node cs =>
    (List.insertionSort rPair cs).attach.flatMap
      (fun x => (0, some x.1.1) :: ((HSet.expandTree x.1.2).map (fun li => (li.1 + 1, li.2))))
termination_by s => sizeOf s
decreasing_by
  have hmem : x.1 ∈ cs := (List.perm_insertionSort rPair cs).mem_iff.mp x.2
  have h1 : sizeOf x.1 < sizeOf cs := List.sizeOf_lt_of_mem hmem
  have h2 : sizeOf x.1.2 < sizeOf x.1 := by
    obtain ⟨⟨a, b⟩, hab⟩ := x
    simp only [Prod.mk.sizeOf_spec]
    omega
  simp only [HSet.node.sizeOf_spec]
  omega

/-- `HierarchicalSet.__str__`: each traversal line indented two spaces per
level, a `*` at sentinel lines, joined with newlines. -/
def HSet.render (s : HSet String) : String :=
  String.intercalate ("\n") ((s.expandTree).map (fun li =>
    String.join (List.replicate li.1 ("  ")) ++
      (match li.2 with
       | none => ("*")
       | some k => k)))

/-! ## Actions and store operations

An `Act` is one printed diff line of `main` (src/dconf_manager.py lines
143-153, 179, 183, 198-203); a `StoreOp` is one dispatched dconf subprocess
call (`dconf_write` / `dconf_reset`).
-/

inductive Act where
  | write (sec opt val : String)
  | reset (sec opt val : String)
  | ignored (sec opt val : String)
deriving DecidableEq

def Act.sec : Act → String
  | .write s _ _ => s
  | .reset s _ _ => s
  | .ignored s _ _ => s

def Act.opt : Act → String
  | .write _ o _ => o
  | .reset _ o _ => o
  | .ignored _ o _ => o

def Act.isIgnored : Act → Bool
  | .ignored _ _ _ => true
  | _ => false

inductive StoreOp where
  | write (key val : String)
  | reset (key : String)
deriving DecidableEq

/-- `posixpath.join(root, section, option)`: the fully qualified dconf key. -/
def dconfKey (root s o : String) : String := pjoin (pjoin root s) o

/-- The `write` helper of `main` (lines 143-147): print one add line and, in
apply mode, dispatch `dconf write`. -/
def writeStep (root s o v : String) (ap : Bool) : Act × List StoreOp :=
  (.write s o v, if ap then [.write (dconfKey root s o) v] else [])

/-- The `reset` helper of `main` (lines 149-153): print one remove line and,
in apply mode, dispatch `dconf reset`. -/
def resetStep (root s o v : String) (ap : Bool) : Act × List StoreOp :=
  (.reset s o v, if ap then [.reset (dconfKey root s o)] else [])

/-- An ignored-notice line (line 179); it never dispatches anything. -/
def ignoredStep (s o v : String) : Act × List StoreOp :=
  (.ignored s o v, [])

/-! ## Parsed configurations

Models the mapping interface of the Python `ConfigParser` objects that
`main` builds (`desired_config` and `dconf_config`).  A parsed configuration
is a sequence of sections in insertion order, each with its options in
insertion order.  Iteration and `keys()` of a `ConfigParser` yield the
implicit `DEFAULT` section first, and `"DEFAULT" in parser` is always true;
the option dictionary owned by the `DEFAULT` section is modelled as empty (neither
`dconf dump` output nor the configurations considered here declare DEFAULT
options).
-/

structure Config where
  sections : List (String × List (String × String))
deriving DecidableEq

/-- Association-list lookup (first match), as for a Python dict access. -/
def lookupS {β : Type} (k : String) : List (String × β) → Option β
  | [] => none
  | (a, b) :: l => if a = k then some b else lookupS k l

/-- Iteration order of a parsed configuration: `DEFAULT` first, then the
declared sections; this is both `for section in parser` and `parser.keys()`. -/
def configIter (c : Config) : List String :=
  ("DEFAULT") :: c.sections.map Prod.fst

/-- `section in parser`: true for `DEFAULT` and every declared section. -/
def configMem (s : String) (c : Config) : Bool :=
  s = ("DEFAULT") || c.sections.any (fun p => p.1 = s)

/-- `parser[section].items()` as an ordered option list, totalized with the
empty list on a missing section.  This is the value of the accesses the loop
performs under a membership guard (line 189) or whose success follows from
the branch conditions; the unguarded accesses that can raise `KeyError` are
modelled by the fallible `configGetE` below and `processSectionE`. -/
def configGet (s : String) (c : Config) : List (String × String) :=
  if s = ("DEFAULT") then [] else (lookupS s c.sections).getD []

/-- One iteration of the loop of lines 162-166 of `main` over the pair
(managed set, excluded set). -/
def buildStep (me : HSet String × HSet String) (sec : String) : HSet String × HSet String :=
  if startsWithDash sec then (me.1, me.2.add (splitSlash (dropHead sec)))
  else (me.1.add (splitSlash sec), me.2)

/-- Lines 159-166 of `main`: route every section of the desired
configuration into the managed set, or, with its leading `-` stripped, into
the excluded set. -/
def buildSets (d : Config) : HSet String × HSet String :=
  (configIter d).foldl buildStep (HSet.empty, HSet.empty)

/-- `sorted(set(a) | set(b))`: the sorted, duplicate-free union (lines
168-171 for sections, lines 194-196 for options). -/
def sortedUnion (a b : List String) : List String :=
  List.insertionSort rStr ((a ++ b).dedup)

/-- The test of line 175: a section is handled as unmanaged iff it is in the
excluded set or not in the managed set. -/
def unmanagedCond (m e : HSet String) (parts : List String) : Bool :=
  e.mem parts || !(m.mem parts)

/-- Lines 197-206: the option-level diff for one option of a managed section
present in both configurations.  `ls` are the live options, `ds` the desired
ones.  A lookup that Python performs only on the side the option is known to
be on (`desired_section[option]` after `option not in dconf_section`) is
totalized with an empty default; the reconcile loop only calls this for
options present on at least one side. -/
def diffOption (root s : String) (ls ds : List (String × String)) (ap : Bool)
    (o : String) : List (Act × List StoreOp) :=
  match lookupS o ls with
  | none => [writeStep root s o ((lookupS o ds).getD ("")) ap]
  | some lv =>
    match lookupS o ds with
    | none => [resetStep root s o lv ap]
    | some dv => if lv = dv then [] else [resetStep root s o lv false, writeStep root s o dv ap]

/-- Lines 173-206: processing of one section of the sorted union. -/
def processSection (root : String) (d l : Config) (m e : HSet String) (ap ig : Bool)
    (s : String) : List (Act × List StoreOp) :=
  if unmanagedCond m e (splitSlash s) then
    if ig then (configGet s l).map (fun p => ignoredStep s p.1 p.2) else []
  else if !(configMem s l) then
    (configGet s d).map (fun p => writeStep root s p.1 p.2 ap)
  else
    let ls := configGet s l
    let ds := if configMem s d then configGet s d else []
    (sortedUnion (ls.map Prod.fst) (ds.map Prod.fst)).flatMap (diffOption root s ls ds ap)

/-- The reconciliation core of `main` (lines 159-206): build the managed and
excluded sets, sort the union of live and non-excluded desired section names,
and process each section in order.  The result is the trace of emitted
actions, each paired with the store operations dispatched for it. -/
def reconcile (root : String) (d l : Config) (ap ig : Bool) : List (Act × List StoreOp) :=
  (sortedUnion (configIter l) ((configIter d).filter (fun k => !(startsWithDash k)))).flatMap
    (processSection root d l (buildSets d).1 (buildSets d).2 ap ig)

/-- The printed action lines of one run, in order. -/
def reconcileActs (root : String) (d l : Config) (ap ig : Bool) : List Act :=
  (reconcile root d l ap ig).map Prod.fst

/-! ## Helper lemmas about the reconcile building blocks -/

theorem mem_sortedUnion {x : String} {a b : List String} :
    x ∈ sortedUnion a b ↔ x ∈ a ∨ x ∈ b := by
  unfold sortedUnion
  rw [(List.perm_insertionSort rStr _).mem_iff, List.mem_dedup, List.mem_append]

theorem nodup_sortedUnion (a b : List String) : (sortedUnion a b).Nodup := by
  unfold sortedUnion
  exact (List.perm_insertionSort rStr _).nodup_iff.mpr (List.nodup_dedup _)

theorem sortedUnion_congr {a a2 b b2 : List String}
    (ha : ∀ x, x ∈ a ↔ x ∈ a2) (hb : ∀ x, x ∈ b ↔ x ∈ b2) :
    sortedUnion a b = sortedUnion a2 b2 := by
  have h1 : ((a ++ b).dedup).Perm ((a2 ++ b2).dedup) := by
    rw [List.perm_ext_iff_of_nodup (List.nodup_dedup _) (List.nodup_dedup _)]
    intro x
    simp only [List.mem_dedup, List.mem_append]
    rw [ha x, hb x]
  have h2 : (sortedUnion a b).Perm (sortedUnion a2 b2) := by
    unfold sortedUnion
    exact ((List.perm_insertionSort rStr _).trans h1).trans
      (List.perm_insertionSort rStr _).symm
  exact List.eq_of_perm_of_sorted h2
    (List.sorted_insertionSort rStr _) (List.sorted_insertionSort rStr _)

theorem any_perm {α : Type} {l1 l2 : List α} (h : l1.Perm l2) (f : α → Bool) :
    l1.any f = l2.any f := by
  cases hb : l2.any f
  · rw [List.any_eq_false] at hb ⊢
    exact fun x hx => hb x (h.mem_iff.mp hx)
  · rw [List.any_eq_true] at hb ⊢
    obtain ⟨x, hx, hfx⟩ := hb
    exact ⟨x, h.mem_iff.mpr hx, hfx⟩

theorem lookupS_mem {β : Type} {k : String} {v : β} {l : List (String × β)}
    (h : lookupS k l = some v) : (k, v) ∈ l := by
  induction l with
  | nil => simp [lookupS] at h
  | cons p l ih =>
    obtain ⟨a, b⟩ := p
    rw [lookupS] at h
    split at h
    · next ha =>
      obtain rfl := ha
      obtain rfl : b = v := Option.some.inj h
      exact List.mem_cons_self _ _
    · next ha => exact List.mem_cons_of_mem _ (ih h)

theorem lookupS_mem_fst {β : Type} {k : String} {v : β} {l : List (String × β)}
    (h : lookupS k l = some v) : k ∈ l.map Prod.fst :=
  List.mem_map.mpr ⟨(k, v), lookupS_mem h, rfl⟩

theorem lookupS_isSome_of_mem_fst {β : Type} {k : String} {l : List (String × β)}
    (h : k ∈ l.map Prod.fst) : ∃ v, lookupS k l = some v := by
  induction l with
  | nil => simp at h
  | cons p l ih =>
    obtain ⟨a, b⟩ := p
    by_cases ha : a = k
    · exact ⟨b, by simp [lookupS, ha]⟩
    · simp only [List.map_cons, List.mem_cons] at h
      rcases h with h | h
      · exact absurd h.symm ha
      · obtain ⟨v, hv⟩ := ih h
        exact ⟨v, by simp [lookupS, ha, hv]⟩

theorem lookupS_eq_none_iff {β : Type} {k : String} {l : List (String × β)} :
    lookupS k l = none ↔ k ∉ l.map Prod.fst := by
  constructor
  · intro h hk
    obtain ⟨v, hv⟩ := lookupS_isSome_of_mem_fst hk
    rw [h] at hv
    exact Option.noConfusion hv
  · intro hk
    cases hl : lookupS k l with
    | none => rfl
    | some v => exact absurd (lookupS_mem_fst hl) hk

theorem lookupS_of_mem_nodup {β : Type} {k : String} {v : β} {l : List (String × β)}
    (hnd : (l.map Prod.fst).Nodup) (h : (k, v) ∈ l) : lookupS k l = some v := by
  induction l with
  | nil => simp at h
  | cons p l ih =>
    obtain ⟨a, b⟩ := p
    simp only [List.map_cons, List.nodup_cons] at hnd
    rcases List.mem_cons.mp h with h | h
    · rw [← h]
      simp [lookupS]
    · have hak : a ≠ k := by
        intro ha
        subst ha
        exact hnd.1 (List.mem_map.mpr ⟨(a, v), h, rfl⟩)
      simp only [lookupS, if_neg hak]
      exact ih hnd.2 h

theorem lookupS_perm {β : Type} {k : String} {l1 l2 : List (String × β)}
    (h : l1.Perm l2) (hnd : (l1.map Prod.fst).Nodup) : lookupS k l1 = lookupS k l2 := by
  have hnd2 : (l2.map Prod.fst).Nodup := ((h.map Prod.fst).nodup_iff).mp hnd
  cases hl : lookupS k l1 with
  | none =>
    rw [lookupS_eq_none_iff] at hl
    rw [eq_comm, lookupS_eq_none_iff]
    exact fun hk => hl ((h.map Prod.fst).mem_iff.mpr hk)
  | some v =>
    rw [eq_comm]
    exact lookupS_of_mem_nodup hnd2 (h.mem_iff.mp (lookupS_mem hl))

theorem filter_flatMap_single {β : Type} (f : String → List β) (p : β → Bool)
    {l : List String} {s : String} (hnd : l.Nodup) (hs : s ∈ l)
    (hout : ∀ t ∈ l, t ≠ s → ∀ x ∈ f t, p x = false) :
    (l.flatMap f).filter p = (f s).filter p := by
  induction l with
  | nil => simp at hs
  | cons t l ih =>
    rw [List.nodup_cons] at hnd
    rw [List.flatMap_cons, List.filter_append]
    rcases List.mem_cons.mp hs with h | h
    · have hrest : (l.flatMap f).filter p = [] := by
        rw [List.filter_eq_nil_iff]
        intro x hx
        obtain ⟨u, hu, hxu⟩ := List.mem_flatMap.mp hx
        have hus : u ≠ s := fun he => hnd.1 ((he.trans h) ▸ hu)
        simp [hout u (List.mem_cons_of_mem _ hu) hus x hxu]
      rw [hrest, List.append_nil, h]
    · have hts : t ≠ s := fun he => hnd.1 (by rw [he]; exact h)
      have hhead : (f t).filter p = [] := by
        rw [List.filter_eq_nil_iff]
        intro x hx
        simp [hout t (List.mem_cons_self _ _) hts x hx]
      rw [hhead, List.nil_append]
      exact ih hnd.2 h (fun u hu => hout u (List.mem_cons_of_mem _ hu))

theorem segment_infix_of_mem {β : Type} (f : String → List β) {l : List String} {s : String}
    (hs : s ∈ l) : (f s) <:+: l.flatMap f := by
  induction l with
  | nil => simp at hs
  | cons t l ih =>
    rw [List.flatMap_cons]
    rcases List.mem_cons.mp hs with h | h
    · rw [h]
      exact ⟨[], l.flatMap f, by simp⟩
    · obtain ⟨u, v, huv⟩ := ih h
      exact ⟨f t ++ u, v, by rw [← huv]; simp⟩

theorem buildStep_foldl_mem (l : List String) (m e : HSet String) (p : List String) :
    ((l.foldl buildStep (m, e)).1.mem p
       = (m.mem p || l.any (fun k => !startsWithDash k && prefixB (splitSlash k) p)))
    ∧ ((l.foldl buildStep (m, e)).2.mem p
       = (e.mem p || l.any (fun k => startsWithDash k && prefixB (splitSlash (dropHead k)) p))) := by
  induction l generalizing m e with
  | nil => simp
  | cons k l ih =>
    simp only [List.foldl_cons, List.any_cons]
    by_cases hk : startsWithDash k
    · have hstep : buildStep (m, e) k = (m, e.add (splitSlash (dropHead k))) := by
        simp [buildStep, hk]
      rw [hstep]
      obtain ⟨ih1, ih2⟩ := ih m (e.add (splitSlash (dropHead k)))
      constructor
      · rw [ih1, hk]
        simp
      · rw [ih2, HSet.mem_add, hk]
        simp [Bool.or_assoc]
    · have hstep : buildStep (m, e) k = (m.add (splitSlash k), e) := by
        simp [buildStep, hk]
      rw [hstep]
      obtain ⟨ih1, ih2⟩ := ih (m.add (splitSlash k)) e
      constructor
      · rw [ih1, HSet.mem_add]
        simp only [startsWithDash] at hk ⊢
        simp [hk, Bool.or_assoc]
      · rw [ih2]
        simp only [startsWithDash] at hk ⊢
        simp [hk]

/-- The managed set contains exactly the paths with a non-excluded desired
section name (as a slash-split path) as prefix. -/
theorem buildSets_fst_mem (d : Config) (p : List String) :
    (buildSets d).1.mem p
      = (configIter d).any (fun k => !startsWithDash k && prefixB (splitSlash k) p) := by
  have h := (buildStep_foldl_mem (configIter d) HSet.empty HSet.empty p).1
  rw [buildSets, h, HSet.mem_empty, Bool.false_or]

/-- The excluded set contains exactly the paths with a dash-marked desired
section name (dash stripped, slash-split) as prefix. -/
theorem buildSets_snd_mem (d : Config) (p : List String) :
    (buildSets d).2.mem p
      = (configIter d).any (fun k => startsWithDash k && prefixB (splitSlash (dropHead k)) p) := by
  have h := (buildStep_foldl_mem (configIter d) HSet.empty HSet.empty p).2
  rw [buildSets, h, HSet.mem_empty, Bool.false_or]

theorem configMem_iff_mem_iter {s : String} {c : Config} :
    configMem s c = true ↔ s ∈ configIter c := by
  rw [configMem, configIter]
  simp only [Bool.or_eq_true, decide_eq_true_eq, List.any_eq_true, List.mem_cons, List.mem_map]

theorem secopt_of_mem_diffOption {root s : String} {ls ds : List (String × String)}
    {ap : Bool} {o : String} {x : Act × List StoreOp}
    (h : x ∈ diffOption root s ls ds ap o) : x.1.sec = s ∧ x.1.opt = o := by
  unfold diffOption at h
  split at h
  · rw [List.mem_singleton] at h
    rw [h]
    exact ⟨rfl, rfl⟩
  · split at h
    · rw [List.mem_singleton] at h
      rw [h]
      exact ⟨rfl, rfl⟩
    · split at h
      · simp at h
      · rcases List.mem_cons.mp h with h | h
        · rw [h]
          exact ⟨rfl, rfl⟩
        · rw [List.mem_singleton] at h
          rw [h]
          exact ⟨rfl, rfl⟩

theorem sec_of_mem_processSection {root : String} {d l : Config} {m e : HSet String}
    {ap ig : Bool} {s : String} {x : Act × List StoreOp}
    (h : x ∈ processSection root d l m e ap ig s) : x.1.sec = s := by
  simp only [processSection] at h
  split at h
  · split at h
    · obtain ⟨pp, hp, hx⟩ := List.mem_map.mp h
      rw [← hx]
      rfl
    · simp at h
  · split at h
    · obtain ⟨pp, hp, hx⟩ := List.mem_map.mp h
      rw [← hx]
      rfl
    · obtain ⟨o, ho, hx⟩ := List.mem_flatMap.mp h
      exact (secopt_of_mem_diffOption hx).1

/-! ## Claims -/

/-- C1: In the reconcile loop, a section path is handled as managed (the
unmanaged test of line 175 is false) if and only if it is a member of the
managed set and not a member of the excluded set; consequently a path that is
a member of both sets is treated as unmanaged, regardless of which rule is
more specific. -/
theorem c1_managed_iff_member_and_not_excluded (m e : HSet String) (p : List String) :
    unmanagedCond m e p = false ↔ (m.mem p = true ∧ e.mem p = false) := by
  unfold unmanagedCond
  cases hm : m.mem p <;> cases he : e.mem p <;> simp

/-- C5: after any finite sequence of adds, a path is a member of the set
exactly when some added path is a prefix of it (equality included), and the
result is unchanged under permuting the order of the adds. -/
theorem c5_membership_from_added_prefixes (adds : List (List String)) (P : List String) :
    ((adds.foldl HSet.add HSet.empty).mem P = true ↔ ∃ Q ∈ adds, Q <+: P)
    ∧ (∀ adds2 : List (List String), adds2.Perm adds →
        (adds2.foldl HSet.add HSet.empty).mem P = (adds.foldl HSet.add HSet.empty).mem P) := by
  constructor
  · rw [HSet.mem_foldl_add, HSet.mem_empty, Bool.false_or, List.any_eq_true]
    constructor
    · rintro ⟨Q, hQ, hp⟩
      exact ⟨Q, hQ, (prefixB_iff Q P).mp hp⟩
    · rintro ⟨Q, hQ, hp⟩
      exact ⟨Q, hQ, (prefixB_iff Q P).mpr hp⟩
  · intro adds2 hperm
    rw [HSet.mem_foldl_add, HSet.mem_foldl_add]
    rw [any_perm hperm]

/-- Witness for C5 at concrete inputs: membership via an added prefix, and
order independence of two concrete add sequences. -/
theorem c5_witness :
    (([[("a")], [("b")]] : List (List String)).foldl HSet.add HSet.empty).mem [("b"), ("c")]
      = (([[("b")], [("a")]] : List (List String)).foldl HSet.add HSet.empty).mem [("b"), ("c")] :=
  (c5_membership_from_added_prefixes [[("b")], [("a")]] [("b"), ("c")]).2
    [[("a")], [("b")]] (by decide)

/-- C6: adding a path and then a strict extension of it leaves membership
unchanged for every queried path: the longer add is absorbed. -/
theorem c6_absorb (s : HSet String) (P Q R : List String)
    (h1 : P <+: Q) (h2 : P ≠ Q) :
    ((s.add P).add Q).mem R = (s.add P).mem R := by
  rw [HSet.mem_add, HSet.mem_add]
  cases hq : prefixB Q R
  · simp
  · have hQR : Q <+: R := (prefixB_iff Q R).mp hq
    have hPR : P <+: R := h1.trans hQR
    rw [(prefixB_iff P R).mpr hPR]
    simp

/-- Witness for C6 at concrete inputs. -/
theorem c6_witness :
    (((HSet.empty : HSet String).add [("a")]).add [("a"), ("b")]).mem [("a"), ("c")]
      = ((HSet.empty : HSet String).add [("a")]).mem [("a"), ("c")] :=
  c6_absorb HSet.empty [("a")] [("a"), ("b")] [("a"), ("c")] ⟨[("b")], rfl⟩ (by decide)

/-- C8: rendering the empty set yields the empty string, and rendering a
universal set (the root made terminal, e.g. by add of the empty path) yields
exactly the sentinel star with no indentation. -/
theorem c8_render_empty_and_universal :
    HSet.render HSet.empty = ("")
    ∧ HSet.render (HSet.empty.add ([] : List String)) = ("*") := by
  constructor
  · rw [HSet.render, HSet.empty, HSet.expandTree]
    rfl
  · rw [show HSet.empty.add ([] : List String) = HSet.terminal from rfl,
      HSet.render, HSet.expandTree]
    rfl

/-- C10: over any add sequence, the empty path is a member exactly when the
empty path itself was added (the universal set); moreover any single add of a
non-empty path preserves non-membership of the empty path. -/
theorem c10_empty_path_membership (adds : List (List String)) :
    (((adds.foldl HSet.add HSet.empty).mem [] = true) ↔ [] ∈ adds)
    ∧ (∀ (s : HSet String) (Q : List String), Q ≠ [] → s.mem [] = false →
        (s.add Q).mem [] = false) := by
  constructor
  · rw [HSet.mem_foldl_add, HSet.mem_empty, Bool.false_or, List.any_eq_true]
    constructor
    · rintro ⟨Q, hQ, hp⟩
      cases Q with
      | nil => exact hQ
      | cons a as => simp [prefixB] at hp
    · intro h
      exact ⟨[], h, rfl⟩
  · intro s Q hQ hs
    rw [HSet.mem_add, hs, Bool.false_or]
    cases Q with
    | nil => exact absurd rfl hQ
    | cons a as => rfl

/-- Witness for C10 at concrete inputs. -/
theorem c10_witness :
    ((HSet.empty : HSet String).add [("a")]).mem [] = false :=
  (c10_empty_path_membership []).2 HSet.empty [("a")] (by decide) (by decide)

theorem reconcile_filter_sec (root : String) (d l : Config) (ap ig : Bool) (S : String)
    (p : Act × List StoreOp → Bool)
    (hS : S ∈ sortedUnion (configIter l) ((configIter d).filter (fun k => !(startsWithDash k))))
    (hp : ∀ x : Act × List StoreOp, x.1.sec ≠ S → p x = false) :
    (reconcile root d l ap ig).filter p
      = (processSection root d l (buildSets d).1 (buildSets d).2 ap ig S).filter p := by
  unfold reconcile
  exact filter_flatMap_single _ p (nodup_sortedUnion _ _) hS
    (fun t ht hts x hx => hp x (by rw [sec_of_mem_processSection hx]; exact hts))

theorem processSection_managed_both (root : String) (d l : Config) (m e : HSet String)
    (ap ig : Bool) (s : String)
    (hm : unmanagedCond m e (splitSlash s) = false)
    (hl : configMem s l = true) :
    processSection root d l m e ap ig s
      = (sortedUnion ((configGet s l).map Prod.fst)
            ((if configMem s d then configGet s d else []).map Prod.fst)).flatMap
          (diffOption root s (configGet s l)
            (if configMem s d then configGet s d else []) ap) := by
  simp [processSection, hm, hl]

/-- Counterexample to C4: a managed section absent from live state whose
desired options are declared out of name order (b before a) produces its
Writes in that insertion order, not sorted by option name. -/
theorem c4_counterexample :
    reconcileActs ("/r") (⟨[(("s"), [(("b"), ("1")), (("a"), ("2"))])]⟩ : Config)
        (⟨[]⟩ : Config) false false
      = [Act.write ("s") ("b") ("1"), Act.write ("s") ("a") ("2")]
    ∧ reconcileActs ("/r") (⟨[(("s"), [(("b"), ("1")), (("a"), ("2"))])]⟩ : Config)
        (⟨[]⟩ : Config) false false
      ≠ [Act.write ("s") ("a") ("2"), Act.write ("s") ("b") ("1")] := by
  constructor
  · decide
  · decide

/-- Counterexample to C3: two desired configurations with the same sets of
section names, option names and values, differing only in option insertion
order, produce different reconcile output order (the new-section branch
iterates desired options in insertion order). -/
theorem c3_counterexample :
    ((⟨[(("s"), [(("b"), ("1")), (("a"), ("2"))])]⟩ : Config).sections.map Prod.fst).Perm
      ((⟨[(("s"), [(("a"), ("2")), (("b"), ("1"))])]⟩ : Config).sections.map Prod.fst)
    ∧ (configGet ("s") (⟨[(("s"), [(("b"), ("1")), (("a"), ("2"))])]⟩ : Config)).Perm
        (configGet ("s") (⟨[(("s"), [(("a"), ("2")), (("b"), ("1"))])]⟩ : Config))
    ∧ reconcileActs ("/r") (⟨[(("s"), [(("b"), ("1")), (("a"), ("2"))])]⟩ : Config)
        (⟨[]⟩ : Config) false false
      ≠ reconcileActs ("/r") (⟨[(("s"), [(("a"), ("2")), (("b"), ("1"))])]⟩ : Config)
        (⟨[]⟩ : Config) false false := by
  refine ⟨by decide, by decide, by decide⟩

/-- C3 as amended: reconcile output is invariant under permuting the section
insertion order of the desired and live configurations (each section keeping
its option list); ordering is not invariant under permuting options within a
section, which feeds the new-section and ignored branches in insertion
order. -/
theorem c3_amended_section_order_irrelevant (root : String) (d1 d2 l1 l2 : Config)
    (ap ig : Bool)
    (hd : d1.sections.Perm d2.sections)
    (hl : l1.sections.Perm l2.sections)
    (hdnd : (d1.sections.map Prod.fst).Nodup)
    (hlnd : (l1.sections.map Prod.fst).Nodup) :
    reconcile root d1 l1 ap ig = reconcile root d2 l2 ap ig := by
  have hid : (configIter d1).Perm (configIter d2) := (hd.map Prod.fst).cons _
  have hil : (configIter l1).Perm (configIter l2) := (hl.map Prod.fst).cons _
  have hmemd : ∀ s, configMem s d1 = configMem s d2 := by
    intro s
    unfold configMem
    rw [any_perm hd]
  have hmeml : ∀ s, configMem s l1 = configMem s l2 := by
    intro s
    unfold configMem
    rw [any_perm hl]
  have hgetd : ∀ s, configGet s d1 = configGet s d2 := by
    intro s
    unfold configGet
    split
    · rfl
    · rw [lookupS_perm hd hdnd]
  have hgetl : ∀ s, configGet s l1 = configGet s l2 := by
    intro s
    unfold configGet
    split
    · rfl
    · rw [lookupS_perm hl hlnd]
  have hbm : ∀ p, (buildSets d1).1.mem p = (buildSets d2).1.mem p := by
    intro p
    rw [buildSets_fst_mem, buildSets_fst_mem, any_perm hid]
  have hbe : ∀ p, (buildSets d1).2.mem p = (buildSets d2).2.mem p := by
    intro p
    rw [buildSets_snd_mem, buildSets_snd_mem, any_perm hid]
  have hsecs : sortedUnion (configIter l1) ((configIter d1).filter (fun k => !(startsWithDash k)))
      = sortedUnion (configIter l2) ((configIter d2).filter (fun k => !(startsWithDash k))) :=
    sortedUnion_congr (fun x => hil.mem_iff) (fun x => (hid.filter _).mem_iff)
  have hps : ∀ s, processSection root d1 l1 (buildSets d1).1 (buildSets d1).2 ap ig s
      = processSection root d2 l2 (buildSets d2).1 (buildSets d2).2 ap ig s := by
    intro s
    unfold processSection
    rw [show unmanagedCond (buildSets d1).1 (buildSets d1).2 (splitSlash s)
        = unmanagedCond (buildSets d2).1 (buildSets d2).2 (splitSlash s) from by
      unfold unmanagedCond
      rw [hbm, hbe]]
    rw [hmeml s, hgetl s, hmemd s, hgetd s]
  unfold reconcile
  rw [hsecs]
  exact List.flatMap_congr (fun s hs => hps s)

/-- Witness for the amended C3 at concrete inputs: swapping two desired
sections leaves the output unchanged. -/
theorem c3_witness :
    reconcile ("/r") (⟨[(("a"), [(("x"), ("1"))]), (("b"), [(("y"), ("2"))])]⟩ : Config)
        (⟨[]⟩ : Config) false false
      = reconcile ("/r") (⟨[(("b"), [(("y"), ("2"))]), (("a"), [(("x"), ("1"))])]⟩ : Config)
        (⟨[]⟩ : Config) false false :=
  c3_amended_section_order_irrelevant ("/r") _ _ _ _ false false
    (by decide) (by decide) (by decide) (by decide)

theorem configMem_eq {s : String} {c : Config} :
    configMem s c = true ↔ s = ("DEFAULT") ∨ s ∈ c.sections.map Prod.fst := by
  rw [configMem_iff_mem_iter, configIter, List.mem_cons]

theorem lookupS_filter_dash {β : Type} {k : String} (hk : startsWithDash k = false)
    (l : List (String × β)) :
    lookupS k (l.filter (fun pr => !(startsWithDash pr.1))) = lookupS k l := by
  induction l with
  | nil => rfl
  | cons p l ih =>
    obtain ⟨a, b⟩ := p
    rw [List.filter_cons]
    by_cases hak : a = k
    · subst hak
      simp [hk, lookupS]
    · by_cases hd : startsWithDash a = true
      · simp [hd, lookupS, hak, ih]
      · simp only [Bool.not_eq_true] at hd
        simp [hd, lookupS, hak, ih]

/-- The live state that results from a fully applied run: the desired
configuration with its exclusion-marker pseudo-sections removed (they are
classifier metadata, never real store sections). -/
def applied (d : Config) : Config :=
  ⟨d.sections.filter (fun pr => !(startsWithDash pr.1))⟩

/-- C7: running reconcile with the live state equal to the desired state
(marker sections excluded) emits no Write and no Reset: every emitted action
is an Ignored notice, for every desired configuration, classifier inputs,
apply flag and show-ignored flag. -/
theorem c7_idempotent (root : String) (d : Config) (ap ig : Bool) :
    (reconcileActs root d (applied d) ap ig).all Act.isIgnored = true := by
  rw [List.all_eq_true]
  intro a ha
  rw [reconcileActs] at ha
  obtain ⟨x, hx, rfl⟩ := List.mem_map.mp ha
  rw [reconcile] at hx
  obtain ⟨s, hsec, hxin⟩ := List.mem_flatMap.mp hx
  have hsmem : s ∈ configIter (applied d) ∨ (s ∈ configIter d ∧ startsWithDash s = false) := by
    rcases mem_sortedUnion.mp hsec with h | h
    · exact Or.inl h
    · obtain ⟨h1, h2⟩ := List.mem_filter.mp h
      refine Or.inr ⟨h1, ?_⟩
      cases hds : startsWithDash s
      · rfl
      · rw [hds] at h2
        exact absurd h2 (by decide)
  have hlive : configMem s (applied d) = true := by
    rcases hsmem with h | ⟨h1, h2⟩
    · exact configMem_iff_mem_iter.mpr h
    · rw [configIter] at h1
      rcases List.mem_cons.mp h1 with h | h
      · exact configMem_eq.mpr (Or.inl h)
      · apply configMem_eq.mpr
        refine Or.inr ?_
        obtain ⟨pr, hpr, hfst⟩ := List.mem_map.mp h
        exact List.mem_map.mpr
          ⟨pr, List.mem_filter.mpr ⟨hpr, by rw [show startsWithDash pr.1 = false from by rw [hfst]; exact h2]; rfl⟩, hfst⟩
  simp only [processSection] at hxin
  split at hxin
  · split at hxin
    · obtain ⟨pr, hpr, hxe⟩ := List.mem_map.mp hxin
      rw [← hxe]
      rfl
    · simp at hxin
  · split at hxin
    · next hcond2 =>
      rw [hlive] at hcond2
      exact absurd hcond2 (by decide)
    · exfalso
      obtain ⟨o, ho, hxo⟩ := List.mem_flatMap.mp hxin
      have hlsds : configGet s (applied d) = (if configMem s d then configGet s d else []) := by
        by_cases hdef : s = ("DEFAULT")
        · have hmd : configMem s d = true := configMem_eq.mpr (Or.inl hdef)
          rw [configGet, configGet, if_pos hdef, if_pos hdef, if_pos hmd]
        · have hsf : s ∈ (applied d).sections.map Prod.fst := by
            rcases configMem_eq.mp hlive with h | h
            · exact absurd h hdef
            · exact h
          obtain ⟨pr, hprf, hfst⟩ := List.mem_map.mp hsf
          obtain ⟨hprd, hkeep⟩ := List.mem_filter.mp hprf
          have hdash_s : startsWithDash s = false := by
            rw [← hfst]
            cases hds : startsWithDash pr.1
            · rfl
            · rw [hds] at hkeep
              exact absurd hkeep (by decide)
          have hmd : configMem s d = true :=
            configMem_eq.mpr (Or.inr (List.mem_map.mpr ⟨pr, hprd, hfst⟩))
          rw [configGet, configGet, if_neg hdef, if_neg hdef, if_pos hmd, applied]
          rw [lookupS_filter_dash hdash_s]
      rw [hlsds] at ho hxo
      have homem : o ∈ ((if configMem s d then configGet s d else []).map Prod.fst) := by
        rcases mem_sortedUnion.mp ho with h | h
        · exact h
        · exact h
      obtain ⟨v, hv⟩ := lookupS_isSome_of_mem_fst homem
      rw [diffOption, hv] at hxo
      simp at hxo

/-! ## The reconciliation loop as executed, with its failure path

`ConfigParser.__getitem__` raises `KeyError` on a missing non-DEFAULT
section.  Of the accesses in the loop, the one of line 178
(`dconf_config[section]` in the unmanaged branch under `--show-ignored`) is
reachable with a missing section: an excluded desired-only section absent
from the live state.  The fallible definitions below model the loop as
executed: the emitted steps in order, and whether the loop ran to
completion or aborted on a `KeyError` (nothing from the failing section
onward is emitted).
-/

/-- `parser[section]` as the fallible access it is: `none` models the
`KeyError` raised on a missing non-DEFAULT section. -/
def configGetE (s : String) (c : Config) : Option (List (String × String)) :=
  if s = ("DEFAULT") then some [] else lookupS s c.sections

theorem configGet_of_configGetE_some {s : String} {c : Config}
    {opts : List (String × String)} (h : configGetE s c = some opts) :
    configGet s c = opts := by
  rw [configGetE] at h
  rw [configGet]
  split at h
  · next hd => rw [if_pos hd]; exact Option.some.inj h
  · next hd => rw [if_neg hd, h]; rfl

/-- Lines 173-206 for one section, as executed: `none` when an unguarded
section access raises `KeyError` (line 178 in the unmanaged show-ignored
branch; lines 182 and 186 are fallible too but their success follows from
the branch conditions whenever the section comes from the sorted union). -/
def processSectionE (root : String) (d l : Config) (m e : HSet String) (ap ig : Bool)
    (s : String) : Option (List (Act × List StoreOp)) :=
  if unmanagedCond m e (splitSlash s) then
    if ig then
      match configGetE s l with
      | none => none
      | some opts => some (opts.map (fun p => ignoredStep s p.1 p.2))
    else some []
  else if !(configMem s l) then
    match configGetE s d with
    | none => none
    | some opts => some (opts.map (fun pr => writeStep root s pr.1 pr.2 ap))
  else
    match configGetE s l with
    | none => none
    | some ls =>
      some ((sortedUnion (ls.map Prod.fst)
          ((if configMem s d then configGet s d else []).map Prod.fst)).flatMap
        (diffOption root s ls (if configMem s d then configGet s d else []) ap))

/-- The section loop as executed: the steps emitted before any failure, in
order, paired with `true` when every section was processed and `false` when
the loop aborted on a `KeyError`. -/
def runSections (f : String → Option (List (Act × List StoreOp))) :
    List String → List (Act × List StoreOp) × Bool
  | [] => ([], true)
  | s :: rest =>
    match f s with
    | none => ([], false)
    | some xs => (xs ++ (runSections f rest).1, (runSections f rest).2)

/-- The reconciliation run as executed: emitted trace prefix and completion
flag. -/
def reconcileRun (root : String) (d l : Config) (ap ig : Bool) :
    List (Act × List StoreOp) × Bool :=
  runSections (processSectionE root d l (buildSets d).1 (buildSets d).2 ap ig)
    (sortedUnion (configIter l) ((configIter d).filter (fun k => !(startsWithDash k))))

theorem processSectionE_some (root : String) (d l : Config) (m e : HSet String)
    (ap ig : Bool) (s : String) (xs : List (Act × List StoreOp))
    (h : processSectionE root d l m e ap ig s = some xs) :
    xs = processSection root d l m e ap ig s := by
  by_cases h1 : unmanagedCond m e (splitSlash s) = true
  · by_cases h2 : ig = true
    · rw [processSectionE, if_pos h1, if_pos h2] at h
      cases hg : configGetE s l with
      | none => rw [hg] at h; cases h
      | some opts =>
        rw [hg] at h
        simp only [processSection]
        rw [if_pos h1, if_pos h2, configGet_of_configGetE_some hg]
        exact (Option.some.inj h).symm
    · rw [processSectionE, if_pos h1, if_neg h2] at h
      simp only [processSection]
      rw [if_pos h1, if_neg h2]
      exact (Option.some.inj h).symm
  · by_cases h3 : (!(configMem s l)) = true
    · rw [processSectionE, if_neg h1, if_pos h3] at h
      cases hg : configGetE s d with
      | none => rw [hg] at h; cases h
      | some opts =>
        rw [hg] at h
        simp only [processSection]
        rw [if_neg h1, if_pos h3, configGet_of_configGetE_some hg]
        exact (Option.some.inj h).symm
    · rw [processSectionE, if_neg h1, if_neg h3] at h
      cases hg : configGetE s l with
      | none => rw [hg] at h; cases h
      | some ls =>
        rw [hg] at h
        simp only [processSection]
        rw [if_neg h1, if_neg h3, configGet_of_configGetE_some hg]
        exact (Option.some.inj h).symm

theorem runSections_complete {f : String → Option (List (Act × List StoreOp))}
    {g : String → List (Act × List StoreOp)}
    (hfg : ∀ s xs, f s = some xs → xs = g s) :
    ∀ (secs : List String), (runSections f secs).2 = true
      → (runSections f secs).1 = secs.flatMap g := by
  intro secs
  induction secs with
  | nil => intro _; rfl
  | cons s rest ih =>
    intro hc
    cases hfs : f s with
    | none =>
      rw [runSections, hfs] at hc
      cases hc
    | some xs =>
      rw [runSections, hfs] at hc
      rw [runSections, hfs, List.flatMap_cons]
      rw [hfg s xs hfs, ih hc]

/-- A completed run emits exactly the total reconcile trace. -/
theorem reconcileRun_complete (root : String) (d l : Config) (ap ig : Bool)
    (h : (reconcileRun root d l ap ig).2 = true) :
    (reconcileRun root d l ap ig).1 = reconcile root d l ap ig := by
  rw [reconcileRun] at h ⊢
  rw [reconcile]
  exact runSections_complete
    (fun s xs hx => processSectionE_some root d l _ _ ap ig s xs hx) _ h

/-- Counterexample to C2: with desired sections A, -A and s (k=2) and live
state holding only s (k=1), section s is managed and the option k differs,
yet with show-ignored set the line-178 access raises KeyError at the
excluded, live-absent section A, which sorts before s: the run aborts with
nothing emitted, so the claimed Reset/Write pair for s/k never appears. -/
theorem c2_counterexample :
    ((buildSets (⟨[(("A"), []), (("-A"), []), (("s"), [(("k"), ("2"))])]⟩ : Config)).1.mem
        (splitSlash ("s")) = true)
    ∧ ((buildSets (⟨[(("A"), []), (("-A"), []), (("s"), [(("k"), ("2"))])]⟩ : Config)).2.mem
        (splitSlash ("s")) = false)
    ∧ (configMem ("s") (⟨[(("s"), [(("k"), ("1"))])]⟩ : Config) = true)
    ∧ (lookupS ("k") (configGet ("s") (⟨[(("s"), [(("k"), ("1"))])]⟩ : Config)) = some ("1"))
    ∧ (lookupS ("k")
        (if configMem ("s") (⟨[(("A"), []), (("-A"), []), (("s"), [(("k"), ("2"))])]⟩ : Config)
         then configGet ("s") (⟨[(("A"), []), (("-A"), []), (("s"), [(("k"), ("2"))])]⟩ : Config)
         else []) = some ("2"))
    ∧ ((reconcileRun ("/r") (⟨[(("A"), []), (("-A"), []), (("s"), [(("k"), ("2"))])]⟩ : Config)
        (⟨[(("s"), [(("k"), ("1"))])]⟩ : Config) true true).2 = false)
    ∧ ((reconcileRun ("/r") (⟨[(("A"), []), (("-A"), []), (("s"), [(("k"), ("2"))])]⟩ : Config)
        (⟨[(("s"), [(("k"), ("1"))])]⟩ : Config) true true).1.filter
        (fun x => x.1.sec = ("s") && x.1.opt = ("k")) = []) := by
  refine ⟨by decide, by decide, by decide, by decide, by decide, by decide, by decide⟩

/-- C2 as amended: in every run that completes without the line-178
KeyError, for a managed section present in live state an option present on
both sides with differing values produces, among all emitted actions for
that section and option, exactly one Reset carrying the live value
immediately followed by one Write carrying the desired value; the Reset
dispatches no store operation even in apply mode, while the Write dispatches
the dconf write exactly in apply mode. -/
theorem c2_differing_value_pair (root : String) (d l : Config) (ap ig : Bool)
    (S o lv dv : String)
    (hcomp : (reconcileRun root d l ap ig).2 = true)
    (hm : (buildSets d).1.mem (splitSlash S) = true)
    (he : (buildSets d).2.mem (splitSlash S) = false)
    (hl : configMem S l = true)
    (hlv : lookupS o (configGet S l) = some lv)
    (hdv : lookupS o (if configMem S d then configGet S d else []) = some dv)
    (hne : lv ≠ dv) :
    (reconcileRun root d l ap ig).1.filter (fun x => x.1.sec = S && x.1.opt = o)
      = [(Act.reset S o lv, []),
         (Act.write S o dv, if ap then [StoreOp.write (dconfKey root S o) dv] else [])]
    ∧ [(Act.reset S o lv, []),
       (Act.write S o dv, if ap then [StoreOp.write (dconfKey root S o) dv] else [])]
        <:+: (reconcileRun root d l ap ig).1 := by
  rw [reconcileRun_complete root d l ap ig hcomp]
  have hcond : unmanagedCond (buildSets d).1 (buildSets d).2 (splitSlash S) = false := by
    unfold unmanagedCond
    rw [hm, he]
    rfl
  have hS : S ∈ sortedUnion (configIter l)
      ((configIter d).filter (fun k => !(startsWithDash k))) :=
    mem_sortedUnion.mpr (Or.inl (configMem_iff_mem_iter.mp hl))
  have hproc := processSection_managed_both root d l (buildSets d).1 (buildSets d).2
    ap ig S hcond hl
  have ho : o ∈ sortedUnion ((configGet S l).map Prod.fst)
      ((if configMem S d then configGet S d else []).map Prod.fst) :=
    mem_sortedUnion.mpr (Or.inl (lookupS_mem_fst hlv))
  have hdiff : diffOption root S (configGet S l)
      (if configMem S d then configGet S d else []) ap o
      = [(Act.reset S o lv, []),
         (Act.write S o dv, if ap then [StoreOp.write (dconfKey root S o) dv] else [])] := by
    unfold diffOption
    rw [hlv, hdv]
    simp [hne, resetStep, writeStep]
  have hptrue : ∀ x ∈ diffOption root S (configGet S l)
      (if configMem S d then configGet S d else []) ap o,
      (fun x : Act × List StoreOp => x.1.sec = S && x.1.opt = o) x = true := by
    intro x hx
    obtain ⟨h1, h2⟩ := secopt_of_mem_diffOption hx
    simp [h1, h2]
  constructor
  · rw [reconcile_filter_sec root d l ap ig S _ hS
      (fun x hx => by simp [hx]), hproc]
    rw [filter_flatMap_single _ _ (nodup_sortedUnion _ _) ho
      (fun t ht hts x hx => by
        obtain ⟨h1, h2⟩ := secopt_of_mem_diffOption hx
        simp [h2, hts])]
    rw [List.filter_eq_self.mpr hptrue, hdiff]
  · rw [← hdiff]
    have h1 : diffOption root S (configGet S l)
        (if configMem S d then configGet S d else []) ap o
          <:+: processSection root d l (buildSets d).1 (buildSets d).2 ap ig S := by
      rw [hproc]
      exact segment_infix_of_mem _ ho
    have h2 : processSection root d l (buildSets d).1 (buildSets d).2 ap ig S
        <:+: reconcile root d l ap ig := by
      unfold reconcile
      exact segment_infix_of_mem _ hS
    exact h1.trans h2

/-- Witness for the amended C2 at a concrete input, in apply mode: the run
completes, the differing-value pair appears, its Reset dispatches nothing,
its Write dispatches the store write. -/
theorem c2_witness :
    (reconcileRun ("/r") (⟨[(("s"), [(("k"), ("2"))])]⟩ : Config)
        (⟨[(("s"), [(("k"), ("1"))])]⟩ : Config) true false).1.filter
        (fun x => x.1.sec = ("s") && x.1.opt = ("k"))
      = [(Act.reset ("s") ("k") ("1"), []),
         (Act.write ("s") ("k") ("2"), [StoreOp.write ("/r/s/k") ("2")])] := by
  have h := c2_differing_value_pair ("/r") (⟨[(("s"), [(("k"), ("2"))])]⟩ : Config)
    (⟨[(("s"), [(("k"), ("1"))])]⟩ : Config) true false ("s") ("k") ("1") ("2")
    (by decide) (by decide) (by decide) (by decide) (by decide) (by decide) (by decide)
  simpa using h.1

/-- Counterexample to C9: the live section DEFAULT/foo is managed (via the
implicit DEFAULT entry) and not excluded, and its option x is absent from
desired state; yet with show-ignored set, the excluded desired-only section
A (which sorts before DEFAULT) hits the line-178 KeyError, the run aborts,
and the claimed Reset for DEFAULT/foo/x is never emitted. -/
theorem c9_counterexample :
    (splitSlash ("DEFAULT/foo") = ("DEFAULT") :: [("foo")])
    ∧ ((buildSets (⟨[(("A"), []), (("-A"), [])]⟩ : Config)).1.mem
        (splitSlash ("DEFAULT/foo")) = true)
    ∧ ((buildSets (⟨[(("A"), []), (("-A"), [])]⟩ : Config)).2.mem
        (splitSlash ("DEFAULT/foo")) = false)
    ∧ (configMem ("DEFAULT/foo") (⟨[(("DEFAULT/foo"), [(("x"), ("1"))])]⟩ : Config) = true)
    ∧ (lookupS ("x") (configGet ("DEFAULT/foo")
        (⟨[(("DEFAULT/foo"), [(("x"), ("1"))])]⟩ : Config)) = some ("1"))
    ∧ (lookupS ("x")
        (if configMem ("DEFAULT/foo") (⟨[(("A"), []), (("-A"), [])]⟩ : Config)
         then configGet ("DEFAULT/foo") (⟨[(("A"), []), (("-A"), [])]⟩ : Config)
         else []) = none)
    ∧ ((reconcileRun ("/r") (⟨[(("A"), []), (("-A"), [])]⟩ : Config)
        (⟨[(("DEFAULT/foo"), [(("x"), ("1"))])]⟩ : Config) true true).2 = false)
    ∧ ((reconcileRun ("/r") (⟨[(("A"), []), (("-A"), [])]⟩ : Config)
        (⟨[(("DEFAULT/foo"), [(("x"), ("1"))])]⟩ : Config) true true).1.filter
        (fun x => x.1.sec = ("DEFAULT/foo") && x.1.opt = ("x")) = []) := by
  refine ⟨by decide, by decide, by decide, by decide, by decide, by decide, by decide,
    by decide⟩

/-- C9 as amended: iterating the parsed desired configuration always yields
the implicit DEFAULT section first, so the managed set always contains every
path whose first segment is DEFAULT; in every run that completes without the
line-178 KeyError, a live section whose path starts with the DEFAULT segment
and is not excluded is handled as managed, and each of its live options
absent from desired state produces exactly one Reset action carrying the
live value (dispatched in apply mode). -/
theorem c9_default_section_managed (root : String) (d l : Config) (ap ig : Bool)
    (S o lv : String) (rest : List String)
    (hcomp : (reconcileRun root d l ap ig).2 = true)
    (hparts : splitSlash S = ("DEFAULT") :: rest)
    (he : (buildSets d).2.mem (splitSlash S) = false)
    (hl : configMem S l = true)
    (hlv : lookupS o (configGet S l) = some lv)
    (hdv : lookupS o (if configMem S d then configGet S d else []) = none) :
    (buildSets d).1.mem (splitSlash S) = true
    ∧ (reconcileRun root d l ap ig).1.filter (fun x => x.1.sec = S && x.1.opt = o)
        = [(Act.reset S o lv, if ap then [StoreOp.reset (dconfKey root S o)] else [])] := by
  rw [reconcileRun_complete root d l ap ig hcomp]
  have hds : splitSlash ("DEFAULT") = [("DEFAULT")] := rfl
  have h1 : (buildSets d).1.mem (splitSlash S) = true := by
    rw [buildSets_fst_mem, configIter, List.any_cons, hparts, hds]
    simp [prefixB, startsWithDash]
  refine ⟨h1, ?_⟩
  have hcond : unmanagedCond (buildSets d).1 (buildSets d).2 (splitSlash S) = false := by
    unfold unmanagedCond
    rw [h1, he]
    rfl
  have hS : S ∈ sortedUnion (configIter l)
      ((configIter d).filter (fun k => !(startsWithDash k))) :=
    mem_sortedUnion.mpr (Or.inl (configMem_iff_mem_iter.mp hl))
  have hproc := processSection_managed_both root d l (buildSets d).1 (buildSets d).2
    ap ig S hcond hl
  have ho : o ∈ sortedUnion ((configGet S l).map Prod.fst)
      ((if configMem S d then configGet S d else []).map Prod.fst) :=
    mem_sortedUnion.mpr (Or.inl (lookupS_mem_fst hlv))
  have hdiff : diffOption root S (configGet S l)
      (if configMem S d then configGet S d else []) ap o
      = [(Act.reset S o lv, if ap then [StoreOp.reset (dconfKey root S o)] else [])] := by
    unfold diffOption
    rw [hlv, hdv]
    simp [resetStep]
  have hptrue : ∀ x ∈ diffOption root S (configGet S l)
      (if configMem S d then configGet S d else []) ap o,
      (fun x : Act × List StoreOp => x.1.sec = S && x.1.opt = o) x = true := by
    intro x hx
    obtain ⟨hx1, hx2⟩ := secopt_of_mem_diffOption hx
    simp [hx1, hx2]
  rw [reconcile_filter_sec root d l ap ig S _ hS
    (fun x hx => by simp [hx]), hproc]
  rw [filter_flatMap_single _ _ (nodup_sortedUnion _ _) ho
    (fun t ht hts x hx => by
      obtain ⟨hx1, hx2⟩ := secopt_of_mem_diffOption hx
      simp [hx2, hts])]
  rw [List.filter_eq_self.mpr hptrue, hdiff]

/-- Witness for the amended C9 at a concrete input: an empty desired
configuration still manages the DEFAULT namespace, the run completes, and a
live option under it is reset. -/
theorem c9_witness :
    ((buildSets (⟨[]⟩ : Config)).1.mem (splitSlash ("DEFAULT/foo")) = true)
    ∧ (reconcileRun ("/r") (⟨[]⟩ : Config)
        (⟨[(("DEFAULT/foo"), [(("x"), ("1"))])]⟩ : Config) true false).1.filter
        (fun x => x.1.sec = ("DEFAULT/foo") && x.1.opt = ("x"))
      = [(Act.reset ("DEFAULT/foo") ("x") ("1"), [StoreOp.reset ("/r/DEFAULT/foo/x")])] := by
  have h := c9_default_section_managed ("/r") (⟨[]⟩ : Config)
    (⟨[(("DEFAULT/foo"), [(("x"), ("1"))])]⟩ : Config) true false
    ("DEFAULT/foo") ("x") ("1") [("foo")]
    (by decide) (by decide) (by decide) (by decide) (by decide) (by decide)
  exact ⟨h.1, by simpa using h.2⟩

/-- C4 as amended: in every run that completes without the line-178
KeyError, a managed section absent from live state yields exactly one Write
per desired option, carrying the desired value, in the insertion order of
the desired option mapping (which is not sorted by option name in
general). -/
theorem c4_amended_new_section_writes (root : String) (d l : Config) (ap ig : Bool)
    (S : String)
    (hcomp : (reconcileRun root d l ap ig).2 = true)
    (hm : (buildSets d).1.mem (splitSlash S) = true)
    (he : (buildSets d).2.mem (splitSlash S) = false)
    (hnl : configMem S l = false)
    (hSd : S ∈ configIter d)
    (hdash : startsWithDash S = false) :
    (reconcileRun root d l ap ig).1.filter (fun x => x.1.sec = S)
      = (configGet S d).map (fun pr => writeStep root S pr.1 pr.2 ap) := by
  rw [reconcileRun_complete root d l ap ig hcomp]
  have hcond : unmanagedCond (buildSets d).1 (buildSets d).2 (splitSlash S) = false := by
    unfold unmanagedCond
    rw [hm, he]
    rfl
  have hS : S ∈ sortedUnion (configIter l)
      ((configIter d).filter (fun k => !(startsWithDash k))) :=
    mem_sortedUnion.mpr (Or.inr (List.mem_filter.mpr ⟨hSd, by rw [hdash]; rfl⟩))
  have hproc : processSection root d l (buildSets d).1 (buildSets d).2 ap ig S
      = (configGet S d).map (fun pr => writeStep root S pr.1 pr.2 ap) := by
    simp [processSection, hcond, hnl]
  rw [reconcile_filter_sec root d l ap ig S _ hS (fun x hx => by simp [hx]), hproc]
  rw [List.filter_eq_self.mpr ?_]
  intro x hx
  obtain ⟨pr, hpr, hx⟩ := List.mem_map.mp hx
  rw [← hx]
  simp [writeStep, Act.sec]

/-- Witness for the amended C4 at a concrete input: the run completes and
the writes come in insertion order. -/
theorem c4_witness :
    (reconcileRun ("/r") (⟨[(("s"), [(("b"), ("1")), (("a"), ("2"))])]⟩ : Config)
        (⟨[]⟩ : Config) false false).1.filter (fun x => x.1.sec = ("s"))
      = (configGet ("s") (⟨[(("s"), [(("b"), ("1")), (("a"), ("2"))])]⟩ : Config)).map
          (fun pr => writeStep ("/r") ("s") pr.1 pr.2 false) :=
  c4_amended_new_section_writes ("/r") _ _ false false ("s")
    (by decide) (by decide) (by decide) (by decide) (by decide) (by decide)
